import Mathlib

/-!
Verification of the receiptbot character caching and transcoding subsystem.

This file gives a shallow embedding of the three core source modules:

* src/characters/cache.py         (class SLRUCache)
* src/characters/unifont.py       (unifont_to_fontb)
* src/characters/unicode_character_printing.py
                                  (class UnicodeCharacterPrinting)

Python OrderedDict segments are modelled as association lists whose head is
the least-recently-used entry (popitem(last=False) pops the head) and whose
tail is the most-recently-used end (insertion of a fresh key appends).
Python exceptions are modelled with Except String; since Python mutation
survives an exception, each fallible cache operation returns the resulting
state next to the Except result.  Python ints are modelled as Int where they
may be negative (capacities) and as Nat where they are byte values.
-/

namespace Receiptbot

/-! ## OrderedDict model

The operations of collections.OrderedDict used by cache.py, on association
lists.  d[k] lookup, `key in d`, `d[k] = v` (update in place when the key is
present, else append at the most-recently-used end), deletion, and
move_to_end. -/

variable {K : Type} {V : Type} [DecidableEq K]

/-- Value stored under a key, if any (first matching entry). -/
def odGet (d : List (K × V)) (k : K) : Option V :=
  (d.find? (fun p => decide (p.1 = k))).map Prod.snd

/-- Remove the entry with the given key. -/
def odErase (d : List (K × V)) (k : K) : List (K × V) :=
  d.filter (fun p => decide (p.1 ≠ k))

/-- OrderedDict assignment d[k] = v: update in place if present, else
append at the most-recently-used end. -/
def odSet (d : List (K × V)) (k : K) (v : V) : List (K × V) :=
  if (d.find? (fun p => decide (p.1 = k))).isSome then
    d.map (fun p => if p.1 = k then (k, v) else p)
  else
    d ++ [(k, v)]

/-- Keys of a segment, in order. -/
def odKeys (d : List (K × V)) : List K := d.map Prod.fst

/-- Values of a segment, in order. -/
def odVals (d : List (K × V)) : List V := d.map Prod.snd

/-! ## SLRUCache (src/characters/cache.py)

The Python object also stores the value factory `self.function`; here the
factory is passed explicitly to each lookup (`alloc`), since in the source it
is a closure reading the live segments. -/

/-- State of class SLRUCache: capacities fixed at construction and the two
OrderedDict segments.  `prot` models the field named `protected` in the
source (a reserved word in Lean). -/
structure SLRUCache (K V : Type) where
  total_capacity : Int
  prob_capacity : Int
  prot_capacity : Int
  probationary : List (K × V)
  prot : List (K × V)
  deriving DecidableEq

/-- SLRUCache.__init__: validation and initial empty segments. -/
def SLRUCache.init (total_capacity prob_capacity : Int) :
    Except String (SLRUCache K V) :=
  if total_capacity ≤ 0 then
    .error "Capacity must be larger than 0."
  else if prob_capacity ≥ total_capacity then
    .error "Probationary capacity must be lower than the total."
  else
    .ok ⟨total_capacity, prob_capacity, total_capacity - prob_capacity, [], []⟩

/-- SLRUCache._promote: make room in the protected segment (demoting its
least-recently-used entry to the probationary segment when full), then
insert the key at the most-recently-used end of protected.  popitem on an
empty dict raises KeyError; the state reached up to that point is kept. -/
def SLRUCache.promoteOp (c : SLRUCache K V) (k : K) (v : V) :
    Except String Unit × SLRUCache K V :=
  if (c.prot.length : Int) ≥ c.prot_capacity then
    match c.prot with
    | [] => (.error "KeyError: dictionary is empty", c)
    | demoted :: rest =>
      (.ok (), { c with prot := odSet rest k v,
                        probationary := odSet c.probationary demoted.1 demoted.2 })
  else
    (.ok (), { c with prot := odSet c.prot k v })

/-- SLRUCache._insert_missed: evict the least-recently-used probationary
entry and recycle its value when the segment is full, otherwise call the
value factory; then insert the key at the most-recently-used end. -/
def SLRUCache.insertMissed (c : SLRUCache K V)
    (alloc : SLRUCache K V → Except String V) (k : K) :
    Except String V × SLRUCache K V :=
  if (c.probationary.length : Int) ≥ c.prob_capacity then
    match c.probationary with
    | [] => (.error "KeyError: dictionary is empty", c)
    | evicted :: rest =>
      (.ok evicted.2, { c with probationary := odSet rest k evicted.2 })
  else
    match alloc c with
    | .error e => (.error e, c)
    | .ok v => (.ok v, { c with probationary := odSet c.probationary k v })

/-- SLRUCache.__getitem__: protected hit (move to most-recently-used end),
probationary hit (promote), or miss (insert via the factory / recycling). -/
def SLRUCache.getItem (c : SLRUCache K V)
    (alloc : SLRUCache K V → Except String V) (k : K) :
    Except String (V × Bool) × SLRUCache K V :=
  match odGet c.prot k with
  | some v => (.ok (v, true), { c with prot := odErase c.prot k ++ [(k, v)] })
  | none =>
    match odGet c.probationary k with
    | some v =>
      let c1 : SLRUCache K V := { c with probationary := odErase c.probationary k }
      match c1.promoteOp k v with
      | (.ok _, c2) => (.ok (v, true), c2)
      | (.error e, c2) => (.error e, c2)
    | none =>
      match c.insertMissed alloc k with
      | (.ok v, c2) => (.ok (v, false), c2)
      | (.error e, c2) => (.error e, c2)

/-- SLRUCache.clear: empty both segments. -/
def SLRUCache.clear (c : SLRUCache K V) : SLRUCache K V :=
  { c with probationary := [], prot := [] }

/-- A sequence of lookups, threading the state; an errored lookup keeps the
state it produced (Python mutation survives the exception). -/
def SLRUCache.runTrace (c : SLRUCache K V)
    (alloc : SLRUCache K V → Except String V) (ks : List K) : SLRUCache K V :=
  ks.foldl (fun c k => (c.getItem alloc k).2) c

/-! ## Slot allocator (UnicodeCharacterPrinting._next_ascii_code) -/

/-- self.char_first = 0x20. -/
def char_first : Nat := 0x20

/-- self.char_last = 0x7E. -/
def char_last : Nat := 0x7E

/-- Codes currently held by either segment (set(prob.values()) union
set(prot.values()); only membership is ever used). -/
def usedCodes (c : SLRUCache K Nat) : List Nat :=
  odVals c.probationary ++ odVals c.prot

/-- UnicodeCharacterPrinting._next_ascii_code: first code in
range(char_first, char_last + 1) not currently held by either segment. -/
def nextAsciiCode (c : SLRUCache K Nat) : Except String Nat :=
  match (List.range' char_first (char_last - char_first + 1)).find?
      (fun code => !((usedCodes c).contains code)) with
  | some code => .ok code
  | none => .error "No free ASCII code available"

/-- UnicodeCharacterPrinting.__init__ cache construction: keys are Python
strings, modelled as lists of code points; total capacity is the size of the
code range. -/
def UnicodeCharacterPrinting.init (prob_capacity : Int) :
    Except String (SLRUCache (List Nat) Nat) :=
  SLRUCache.init ((char_last : Int) - (char_first : Int) + 1) prob_capacity

/-! ## Glyph transcoder (src/characters/unifont.py, unifont_to_fontb)

Bytes are modelled as Nat; the function only reads bits 0..7 of each input
byte and only produces bytes below 256. -/

/-- The Python slice src[start::2] (start is 0 or 1). -/
def sliceStep2 (src : List Nat) (start : Nat) : List Nat :=
  (List.range ((src.length - start + 1) / 2)).map (fun i => src.getD (start + 2 * i) 0)

/-- dst[i] |= 1 << b on the destination byte array. -/
def fontbSet (dst : List Nat) (i : Nat) (b : Nat) : List Nat :=
  dst.set i (dst.getD i 0 ||| 1 <<< b)

/-- Body of the nested loop of unifont_to_fontb: map the source bit at row y,
column x (mask 0x80 >> x) to destination byte new_y * 3 + new_x / 8 and
destination bit 7 - new_x % 8, where new_x = y and new_y = x. -/
def fontbStep (src : List Nat) (dst : List Nat) (y x : Nat) : List Nat :=
  if src.getD y 0 &&& (0x80 >>> x) ≠ 0 then
    fontbSet dst (x * 3 + y / 8) (7 - y % 8)
  else dst

/-- The 16-byte core of unifont_to_fontb: dst = bytearray(24) filled by the
nested loop over y in range(16), x in range(8). -/
def fontbCore (src : List Nat) : List Nat :=
  (List.range 16).foldl
    (fun dst y => (List.range 8).foldl (fun dst x => fontbStep src dst y x) dst)
    (List.replicate 24 0)

/-- unifont_to_fontb: 16-byte bitmaps give one 24-byte block; 32-byte bitmaps
are deinterleaved (src[1::2] is transcoded by the recursive call, src[0::2]
by the main body), a 3-byte blank row is prepended to the first block
(out[0] in the source) and the second half is appended; other lengths raise
ValueError.  The recursive call always returns a one-element list, of which
the source takes the head. -/
def unifont_to_fontb (src : List Nat) : Except String (List (List Nat)) :=
  if src.length = 16 then
    .ok [fontbCore src]
  else if src.length = 32 then
    match unifont_to_fontb (sliceStep2 src 1) with
    | .error e => .error e
    | .ok blocks2 =>
      .ok [List.replicate 3 0 ++ fontbCore (sliceStep2 src 0), blocks2.headD []]
  else
    .error "bitmap not 8x16 or 16x16."
termination_by src.length
decreasing_by simp [sliceStep2]; omega

/-! ## Text driver (src/characters/unicode_character_printing.py)

The byte sink self.printer._raw is modelled as an ordered list of emitted
device commands; self.printer.set(font='b') is an opaque escpos call
recorded as one event.  A Python exception inside text() propagates to the
caller, so the driver functions return the state reached so far next to the
Except result. -/

/-- One externally observable action of the driver. -/
inductive DeviceCmd where
  | setFont : DeviceCmd
  | raw : List Nat → DeviceCmd
  deriving DecidableEq

/-- Whether a device command transmits the given byte (used to state that
no command before a point carries a buffered code byte). -/
def rawHasByte (cmd : DeviceCmd) (b : Nat) : Bool :=
  match cmd with
  | .setFont => false
  | .raw bs => bs.contains b

/-- Driver state: the character cache and the commands emitted so far. -/
structure PrinterState where
  cache : SLRUCache (List Nat) Nat
  out : List DeviceCmd
  deriving DecidableEq

/-- escpos ESC byte. -/
def ESCb : Nat := 0x1B

/-- self._raw(msg): append one chunk to the sink. -/
def rawEmit (s : PrinterState) (msg : List Nat) : PrinterState :=
  { s with out := s.out ++ [.raw msg] }

/-- _select_udc: ESC % 1. -/
def selectUdc (s : PrinterState) : PrinterState :=
  rawEmit s [ESCb, 0x25, 0x01]

/-- _cancel_udc: ESC % 0. -/
def cancelUdc (s : PrinterState) : PrinterState :=
  rawEmit s [ESCb, 0x25, 0x00]

/-- _define_udc: reject blocks over 27 bytes, else emit
ESC & 3 code code rows followed by the bitmap, rows = len(bitmap) / 3. -/
def defineUdc (s : PrinterState) (code : Nat) (bitmap : List Nat) :
    Except String PrinterState :=
  if bitmap.length > 27 then
    .error "bitmap too large, maximum 27 bytes for font B."
  else
    .ok (rawEmit s ([ESCb, 0x26, 0x03, code, code, bitmap.length / 3] ++ bitmap))

/-- unicodedata.category(chr(c)) == 'Cc': the Unicode control characters are
exactly U+0000..U+001F and U+007F..U+009F. -/
def isCc (c : Nat) : Bool :=
  c < 0x20 || (0x7F ≤ c && c ≤ 0x9F)

/-- The per-cell sequence of text(): look the key up in the cache, append
the resulting code to the pending buffer, and on a miss define the slot and
then transmit and clear the buffer.  Used for the primary key with block 0
and, for double-width glyphs, for the prefixed key with block 1. -/
def halfStep (s : PrinterState) (codes : List Nat) (key : List Nat)
    (block : List Nat) : Except String Unit × PrinterState × List Nat :=
  let r := s.cache.getItem nextAsciiCode key
  let s1 : PrinterState := { s with cache := r.2 }
  match r.1 with
  | .error e => (.error e, s1, codes)
  | .ok (code, cache_hit) =>
    let codes1 := codes ++ [code]
    if cache_hit then
      (.ok (), s1, codes1)
    else
      match defineUdc s1 code block with
      | .error e => (.error e, s1, codes1)
      | .ok s2 => (.ok (), rawEmit s2 codes1, [])

/-- Loop body of text() for one non-control character with its bitmap list
(one or two blocks; entries built by unifont_to_fontb are never empty, so
block indexing is modelled with getD). -/
def glyphChar (s : PrinterState) (codes : List Nat) (char : Nat)
    (bitmap : List (List Nat)) : Except String Unit × PrinterState × List Nat :=
  match halfStep s codes [char] (bitmap.getD 0 []) with
  | (.error e, s1, codes1) => (.error e, s1, codes1)
  | (.ok _, s1, codes1) =>
    if bitmap.length = 2 then
      halfStep s1 codes1 [0x5F, char] (bitmap.getD 1 [])
    else
      (.ok (), s1, codes1)

/-- Loop body of text() for one character: control characters append their
ordinal to the buffer; otherwise the glyph is fetched from the font with
fallback to the question-mark entry (KeyError if that is missing too). -/
def textChar (font : Nat → Option (List (List Nat))) (s : PrinterState)
    (codes : List Nat) (char : Nat) :
    Except String Unit × PrinterState × List Nat :=
  if isCc char then
    (.ok (), s, codes ++ [char])
  else
    match font char with
    | some bitmap => glyphChar s codes char bitmap
    | none =>
      match font 0x3F with
      | some bitmap => glyphChar s codes char bitmap
      | none => (.error "KeyError: ?", s, codes)

/-- The for-loop of text(), stopping at the first raised exception. -/
def textLoop (font : Nat → Option (List (List Nat))) :
    List Nat → PrinterState → List Nat →
    Except String Unit × PrinterState × List Nat
  | [], s, codes => (.ok (), s, codes)
  | char :: rest, s, codes =>
    match textChar font s codes char with
    | (.error e, s1, codes1) => (.error e, s1, codes1)
    | (.ok _, s1, codes1) => textLoop font rest s1 codes1

/-- UnicodeCharacterPrinting.text: select font B, select user defined
characters, process every character, transmit any remaining buffered codes,
cancel user defined characters.  An exception stops the function with the
commands emitted so far. -/
def text (font : Nat → Option (List (List Nat)))
    (cache : SLRUCache (List Nat) Nat) (txt : List Nat) :
    Except String Unit × PrinterState :=
  let s0 : PrinterState := { cache := cache, out := [.setFont] }
  let s1 := selectUdc s0
  match textLoop font txt s1 [] with
  | (.error e, s2, _) => (.error e, s2)
  | (.ok _, s2, codes) =>
    let s3 := if codes.isEmpty then s2 else rawEmit s2 codes
    (.ok (), cancelUdc s3)

/-! ## Invariants and reachability -/

/-- Code bookkeeping invariant of the character cache: every key lives in at
most one place (the two key lists are jointly duplicate free), the stored
device codes are pairwise distinct, and every code lies in the fixed range
char_first..char_last. -/
def CodeInv (c : SLRUCache K Nat) : Prop :=
  (odKeys c.probationary ++ odKeys c.prot).Nodup ∧
  (odVals c.probationary ++ odVals c.prot).Nodup ∧
  ∀ v ∈ odVals c.probationary ++ odVals c.prot, char_first ≤ v ∧ v ≤ char_last

/-- Cache states reachable from a freshly constructed
UnicodeCharacterPrinting cache through lookups (with the
_next_ascii_code factory) and clear(); a lookup that raises leaves the
state it produced, so its result state is reachable as well. -/
inductive ReachableUCP (p : Int) : SLRUCache (List Nat) Nat → Prop where
  | start (c : SLRUCache (List Nat) Nat) :
      UnicodeCharacterPrinting.init p = .ok c → ReachableUCP p c
  | lookup (c : SLRUCache (List Nat) Nat) (k : List Nat) :
      ReachableUCP p c → ReachableUCP p (c.getItem nextAsciiCode k).2
  | clearStep (c : SLRUCache (List Nat) Nat) :
      ReachableUCP p c → ReachableUCP p c.clear

/-! ## Concrete instances used by witnesses and counterexamples -/

/-- A font with a single-width glyph for the letter A. -/
def fontGood : Nat → Option (List (List Nat)) :=
  fun c => if c = 65 then some [List.replicate 24 0] else none

/-- A font whose glyph for A has an oversize (28-byte) first block and whose
glyph for B is well sized. -/
def fontOversize : Nat → Option (List (List Nat)) :=
  fun c =>
    if c = 65 then some [List.replicate 28 0]
    else if c = 66 then some [List.replicate 24 0]
    else none

/-- The cache state built by UnicodeCharacterPrinting.__init__ with the
default prob_capacity = 8: total 95 codes (0x20..0x7E). -/
def ucpFresh : SLRUCache (List Nat) Nat := ⟨95, 8, 87, [], []⟩

/-- Fresh cache with total_capacity = 4 and probationary_capacity = 2 for
the access-trace example (keys 0..4 standing for A..E). -/
def c8s0 : SLRUCache Nat Nat := ⟨4, 2, 2, [], []⟩

/-- State after accessing A. -/
def c8s1 : Except String (Nat × Bool) × SLRUCache Nat Nat :=
  c8s0.getItem nextAsciiCode 0

/-- State after accessing A, B. -/
def c8s2 : Except String (Nat × Bool) × SLRUCache Nat Nat :=
  c8s1.2.getItem nextAsciiCode 1

/-- State after accessing A, B, A. -/
def c8s3 : Except String (Nat × Bool) × SLRUCache Nat Nat :=
  c8s2.2.getItem nextAsciiCode 0

/-- State after accessing A, B, A, C. -/
def c8s4 : Except String (Nat × Bool) × SLRUCache Nat Nat :=
  c8s3.2.getItem nextAsciiCode 2

/-- State after accessing A, B, A, C, D. -/
def c8s5 : Except String (Nat × Bool) × SLRUCache Nat Nat :=
  c8s4.2.getItem nextAsciiCode 3

/-- State after accessing A, B, A, C, D, E. -/
def c8s6 : Except String (Nat × Bool) × SLRUCache Nat Nat :=
  c8s5.2.getItem nextAsciiCode 4

/-! # Theorems -/

/-! ## Ordered-dictionary lemmas -/

theorem odGet_cons {p : K × V} {t : List (K × V)} {k : K} :
    odGet (p :: t) k = if p.1 = k then some p.2 else odGet t k := by
  by_cases h : p.1 = k <;> simp [odGet, List.find?_cons, h]

theorem odErase_cons {p : K × V} {t : List (K × V)} {k : K} :
    odErase (p :: t) k = if p.1 = k then odErase t k else p :: odErase t k := by
  by_cases h : p.1 = k <;> simp [odErase, List.filter_cons, h]

theorem odGet_eq_none_iff {d : List (K × V)} {k : K} :
    odGet d k = none ↔ k ∉ odKeys d := by
  simp only [odGet, Option.map_eq_none', List.find?_eq_none, odKeys,
    List.mem_map, decide_eq_true_eq]
  constructor
  · rintro h ⟨p, hp, rfl⟩
    exact h p hp rfl
  · rintro h p hp rfl
    exact h ⟨p, hp, rfl⟩

theorem odGet_some_mem {d : List (K × V)} {k : K} {v : V}
    (h : odGet d k = some v) : (k, v) ∈ d := by
  simp only [odGet, Option.map_eq_some'] at h
  obtain ⟨p, hp, rfl⟩ := h
  have h1 := List.find?_some hp
  have h2 := List.mem_of_find?_eq_some hp
  simp only [decide_eq_true_eq] at h1
  have : p = (k, p.2) := by
    cases p
    simp_all
  rwa [this] at h2

theorem odGet_some_mem_keys {d : List (K × V)} {k : K} {v : V}
    (h : odGet d k = some v) : k ∈ odKeys d := by
  have := odGet_some_mem h
  exact List.mem_map.mpr ⟨(k, v), this, rfl⟩

theorem odErase_of_not_mem {d : List (K × V)} {k : K} (h : k ∉ odKeys d) :
    odErase d k = d := by
  apply List.filter_eq_self.mpr
  intro p hp
  simp only [decide_eq_true_eq]
  intro hk
  exact h (List.mem_map.mpr ⟨p, hp, hk⟩)

theorem odSet_of_not_mem {d : List (K × V)} {k : K} (v : V) (h : k ∉ odKeys d) :
    odSet d k v = d ++ [(k, v)] := by
  unfold odSet
  rw [if_neg]
  simp only [List.find?_isSome, decide_eq_true_eq, not_exists]
  rintro p ⟨hp, hk⟩
  exact h (List.mem_map.mpr ⟨p, hp, hk⟩)

theorem odErase_length_le (d : List (K × V)) (k : K) :
    (odErase d k).length ≤ d.length :=
  List.length_filter_le _ _

theorem odErase_length_lt {d : List (K × V)} {k : K} {v : V}
    (h : odGet d k = some v) : (odErase d k).length < d.length :=
  List.length_filter_lt_length_iff_exists.mpr
    ⟨(k, v), odGet_some_mem h, by simp⟩

theorem odSet_length_le (d : List (K × V)) (k : K) (v : V) :
    (odSet d k v).length ≤ d.length + 1 := by
  unfold odSet
  split
  · simp
  · simp

theorem odKeys_append (a b : List (K × V)) :
    odKeys (a ++ b) = odKeys a ++ odKeys b := by
  simp [odKeys]

theorem odVals_append (a b : List (K × V)) :
    odVals (a ++ b) = odVals a ++ odVals b := by
  simp [odVals]

theorem odKeys_erase_sublist (d : List (K × V)) (k : K) :
    List.Sublist (odKeys (odErase d k)) (odKeys d) :=
  (List.filter_sublist d).map Prod.fst

theorem odVals_erase_sublist (d : List (K × V)) (k : K) :
    List.Sublist (odVals (odErase d k)) (odVals d) :=
  (List.filter_sublist d).map Prod.snd

theorem od_perm_erase {d : List (K × V)} {k : K} {v : V}
    (hnd : (odKeys d).Nodup) (h : odGet d k = some v) :
    d.Perm ((k, v) :: odErase d k) := by
  induction d with
  | nil => simp [odGet] at h
  | cons p t ih =>
    rw [odGet_cons] at h
    rw [odErase_cons]
    have hnd1 : p.1 ∉ odKeys t := (List.nodup_cons.mp hnd).1
    have hnd2 : (odKeys t).Nodup := (List.nodup_cons.mp hnd).2
    by_cases hp : p.1 = k
    · rw [if_pos hp] at h
      rw [if_pos hp]
      injection h with h
      have hk : k ∉ odKeys t := hp ▸ hnd1
      rw [odErase_of_not_mem hk]
      have hpk : p = (k, v) := by
        cases p
        simp_all
      rw [hpk]
    · rw [if_neg hp] at h
      rw [if_neg hp]
      exact ((ih hnd2 h).cons p).trans (List.Perm.swap (k, v) p _)

theorem odKeys_perm_erase {d : List (K × V)} {k : K} {v : V}
    (hnd : (odKeys d).Nodup) (h : odGet d k = some v) :
    (odKeys d).Perm (k :: odKeys (odErase d k)) := by
  simpa [odKeys] using (od_perm_erase hnd h).map Prod.fst

theorem odVals_perm_erase {d : List (K × V)} {k : K} {v : V}
    (hnd : (odKeys d).Nodup) (h : odGet d k = some v) :
    (odVals d).Perm (v :: odVals (odErase d k)) := by
  simpa [odVals] using (od_perm_erase hnd h).map Prod.snd

/-! ## Capacity bounds (claim C6 infrastructure) -/

theorem promoteOp_bounds (c : SLRUCache K V) (k : K) (v : V)
    (hpb : (c.probationary.length : Int) + 1 ≤ c.prob_capacity)
    (hpt : (c.prot.length : Int) ≤ c.prot_capacity) :
    (c.promoteOp k v).2.total_capacity = c.total_capacity ∧
    (c.promoteOp k v).2.prob_capacity = c.prob_capacity ∧
    (c.promoteOp k v).2.prot_capacity = c.prot_capacity ∧
    (((c.promoteOp k v).2.probationary.length : Int) ≤ c.prob_capacity) ∧
    (((c.promoteOp k v).2.prot.length : Int) ≤ c.prot_capacity) := by
  unfold SLRUCache.promoteOp
  by_cases hge : (c.prot.length : Int) ≥ c.prot_capacity
  · rw [if_pos hge]
    cases hc : c.prot with
    | nil =>
      dsimp only
      exact ⟨rfl, rfl, rfl, by omega, hpt⟩
    | cons d rest =>
      dsimp only
      refine ⟨rfl, rfl, rfl, ?_, ?_⟩
      · have h1 := odSet_length_le c.probationary d.1 d.2
        omega
      · have h1 := odSet_length_le rest k v
        have h2 : c.prot.length = rest.length + 1 := by rw [hc]; rfl
        omega
  · rw [if_neg hge]
    dsimp only
    refine ⟨rfl, rfl, rfl, by omega, ?_⟩
    have h1 := odSet_length_le c.prot k v
    omega

theorem insertMissed_bounds (c : SLRUCache K V)
    (alloc : SLRUCache K V → Except String V) (k : K)
    (hpb : (c.probationary.length : Int) ≤ c.prob_capacity) :
    (c.insertMissed alloc k).2.total_capacity = c.total_capacity ∧
    (c.insertMissed alloc k).2.prob_capacity = c.prob_capacity ∧
    (c.insertMissed alloc k).2.prot_capacity = c.prot_capacity ∧
    (((c.insertMissed alloc k).2.probationary.length : Int) ≤ c.prob_capacity) ∧
    (c.insertMissed alloc k).2.prot = c.prot := by
  unfold SLRUCache.insertMissed
  by_cases hge : (c.probationary.length : Int) ≥ c.prob_capacity
  · rw [if_pos hge]
    cases hc : c.probationary with
    | nil =>
      dsimp only
      exact ⟨rfl, rfl, rfl, hpb, rfl⟩
    | cons e rest =>
      dsimp only
      refine ⟨rfl, rfl, rfl, ?_, rfl⟩
      have h1 := odSet_length_le rest k e.2
      have h2 : c.probationary.length = rest.length + 1 := by rw [hc]; rfl
      omega
  · rw [if_neg hge]
    cases halloc : alloc c with
    | error e =>
      dsimp only
      exact ⟨rfl, rfl, rfl, hpb, rfl⟩
    | ok v =>
      dsimp only
      refine ⟨rfl, rfl, rfl, ?_, rfl⟩
      have h1 := odSet_length_le c.probationary k v
      omega

theorem getItem_bounds (c : SLRUCache K V)
    (alloc : SLRUCache K V → Except String V) (k : K)
    (hpb : (c.probationary.length : Int) ≤ c.prob_capacity)
    (hpt : (c.prot.length : Int) ≤ c.prot_capacity) :
    (c.getItem alloc k).2.total_capacity = c.total_capacity ∧
    (c.getItem alloc k).2.prob_capacity = c.prob_capacity ∧
    (c.getItem alloc k).2.prot_capacity = c.prot_capacity ∧
    (((c.getItem alloc k).2.probationary.length : Int) ≤ c.prob_capacity) ∧
    (((c.getItem alloc k).2.prot.length : Int) ≤ c.prot_capacity) := by
  unfold SLRUCache.getItem
  cases hg : odGet c.prot k with
  | some v =>
    dsimp only
    refine ⟨rfl, rfl, rfl, hpb, ?_⟩
    have h1 := odErase_length_lt hg
    have h2 : (odErase c.prot k ++ [(k, v)]).length = (odErase c.prot k).length + 1 := by
      simp
    simp only [h2]
    omega
  | none =>
    cases hg2 : odGet c.probationary k with
    | some v =>
      dsimp only
      have hlt := odErase_length_lt hg2
      have hb := promoteOp_bounds
        { c with probationary := odErase c.probationary k } k v
        (by dsimp only; omega) (by dsimp only; exact hpt)
      rcases hp : SLRUCache.promoteOp
          { c with probationary := odErase c.probationary k } k v with ⟨r, c2⟩
      rw [hp] at hb
      cases r with
      | ok u =>
        dsimp only at hb ⊢
        exact ⟨hb.1, hb.2.1, hb.2.2.1, hb.2.2.2.1, hb.2.2.2.2⟩
      | error e =>
        dsimp only at hb ⊢
        exact ⟨hb.1, hb.2.1, hb.2.2.1, hb.2.2.2.1, hb.2.2.2.2⟩
    | none =>
      dsimp only
      have hb := insertMissed_bounds c alloc k hpb
      rcases hi : SLRUCache.insertMissed c alloc k with ⟨r, c2⟩
      rw [hi] at hb
      cases r with
      | ok u =>
        dsimp only at hb ⊢
        exact ⟨hb.1, hb.2.1, hb.2.2.1, hb.2.2.2.1, by rw [hb.2.2.2.2]; exact hpt⟩
      | error e =>
        dsimp only at hb ⊢
        exact ⟨hb.1, hb.2.1, hb.2.2.1, hb.2.2.2.1, by rw [hb.2.2.2.2]; exact hpt⟩

theorem runTrace_bounds (alloc : SLRUCache K V → Except String V)
    (ks : List K) :
    ∀ c : SLRUCache K V,
      ((c.probationary.length : Int) ≤ c.prob_capacity) →
      ((c.prot.length : Int) ≤ c.prot_capacity) →
      (c.runTrace alloc ks).prob_capacity = c.prob_capacity ∧
      (c.runTrace alloc ks).prot_capacity = c.prot_capacity ∧
      (((c.runTrace alloc ks).probationary.length : Int) ≤ c.prob_capacity) ∧
      (((c.runTrace alloc ks).prot.length : Int) ≤ c.prot_capacity) := by
  induction ks with
  | nil => exact fun c h1 h2 => ⟨rfl, rfl, h1, h2⟩
  | cons k ks ih =>
    intro c h1 h2
    obtain ⟨_, hf2, hf3, hb1, hb2⟩ := getItem_bounds c alloc k h1 h2
    have step : c.runTrace alloc (k :: ks) =
        ((c.getItem alloc k).2).runTrace alloc ks := rfl
    rw [step]
    obtain ⟨g2, g3, g4, g5⟩ :=
      ih (c.getItem alloc k).2 (by rw [hf2]; exact hb1) (by rw [hf3]; exact hb2)
    exact ⟨by rw [g2, hf2], by rw [g3, hf3], by rw [hf2] at g4; exact g4,
      by rw [hf3] at g5; exact g5⟩

/-! ## Code invariant (claim C7 infrastructure) -/

theorem nextAsciiCode_ok {c : SLRUCache K Nat} {v : Nat}
    (h : nextAsciiCode c = .ok v) :
    char_first ≤ v ∧ v ≤ char_last ∧ v ∉ usedCodes c := by
  unfold nextAsciiCode at h
  cases hf : List.find? (fun code => !((usedCodes c).contains code))
      (List.range' char_first (char_last - char_first + 1)) with
  | none => rw [hf] at h; cases h
  | some code =>
    rw [hf] at h
    have hcv : code = v := by injection h
    have h1 := List.find?_some hf
    have h2 := List.mem_of_find?_eq_some hf
    rw [hcv] at h1 h2
    rw [List.mem_range'_1] at h2
    simp only [Bool.not_eq_true'] at h1
    refine ⟨h2.1, ?_, ?_⟩
    · have h3 := h2.2
      simp only [char_first, char_last] at h3 ⊢
      omega
    · intro hmem
      have hc : (usedCodes c).contains v = true := by simpa using hmem
      rw [hc] at h1
      cases h1

theorem codeInv_perm {c c' : SLRUCache K Nat}
    (hpk : (odKeys c'.probationary ++ odKeys c'.prot).Perm
      (odKeys c.probationary ++ odKeys c.prot))
    (hpv : (odVals c'.probationary ++ odVals c'.prot).Perm
      (odVals c.probationary ++ odVals c.prot))
    (h : CodeInv c) : CodeInv c' := by
  obtain ⟨h1, h2, h3⟩ := h
  exact ⟨hpk.nodup_iff.mpr h1, hpv.nodup_iff.mpr h2,
    fun v hv => h3 v (hpv.mem_iff.mp hv)⟩

/-- _promote preserves the code invariant, stated for the state in which
the promoted entry (key, value) has already been popped from the
probationary segment: the hypotheses say that the configuration extended
with that entry is duplicate free and in range. -/
theorem promoteOp_codeInv (c : SLRUCache K Nat) (k : K) (v : Nat)
    (H1 : (k :: (odKeys c.probationary ++ odKeys c.prot)).Nodup)
    (H2 : (v :: (odVals c.probationary ++ odVals c.prot)).Nodup)
    (H3 : ∀ w ∈ v :: (odVals c.probationary ++ odVals c.prot),
      char_first ≤ w ∧ w ≤ char_last) :
    CodeInv (c.promoteOp k v).2 := by
  have hkNotIn : k ∉ odKeys c.probationary ++ odKeys c.prot := (List.nodup_cons.mp H1).1
  have hks : (odKeys c.probationary ++ odKeys c.prot).Nodup := (List.nodup_cons.mp H1).2
  have hvs : (odVals c.probationary ++ odVals c.prot).Nodup := (List.nodup_cons.mp H2).2
  have hrange : ∀ w ∈ odVals c.probationary ++ odVals c.prot,
      char_first ≤ w ∧ w ≤ char_last := fun w hw => H3 w (List.mem_cons_of_mem _ hw)
  unfold SLRUCache.promoteOp
  by_cases hfull : (c.prot.length : Int) ≥ c.prot_capacity
  · rw [if_pos hfull]
    cases hcp : c.prot with
    | nil =>
      dsimp only
      exact ⟨hks, hvs, hrange⟩
    | cons d rest =>
      dsimp only
      have hdisj := (List.nodup_append.mp hks).2.2
      have hdInProt : d.1 ∈ odKeys c.prot := by
        rw [hcp]
        exact List.mem_cons_self _ _
      have hdProb : d.1 ∉ odKeys c.probationary := fun hm => hdisj hm hdInProt
      have hkRest : k ∉ odKeys rest := by
        intro hm
        apply hkNotIn
        apply List.mem_append.mpr
        right
        rw [hcp]
        exact List.mem_cons_of_mem _ hm
      rw [odSet_of_not_mem d.2 hdProb, odSet_of_not_mem v hkRest]
      have hKrest : odKeys c.prot = d.1 :: odKeys rest := by rw [hcp]; rfl
      have hVrest : odVals c.prot = d.2 :: odVals rest := by rw [hcp]; rfl
      have hpermK : ((odKeys c.probationary ++ [d.1]) ++ (odKeys rest ++ [k])).Perm
          (k :: (odKeys c.probationary ++ odKeys c.prot)) := by
        rw [hKrest, ← Multiset.coe_eq_coe]
        simp only [← Multiset.coe_add, ← Multiset.cons_coe,
          ← Multiset.singleton_add, Multiset.coe_nil]
        abel
      have hpermV : ((odVals c.probationary ++ [d.2]) ++ (odVals rest ++ [v])).Perm
          (v :: (odVals c.probationary ++ odVals c.prot)) := by
        rw [hVrest, ← Multiset.coe_eq_coe]
        simp only [← Multiset.coe_add, ← Multiset.cons_coe,
          ← Multiset.singleton_add, Multiset.coe_nil]
        abel
      refine ⟨?_, ?_, ?_⟩
      · dsimp only
        rw [odKeys_append, odKeys_append]
        exact hpermK.nodup_iff.mpr H1
      · dsimp only
        rw [odVals_append, odVals_append]
        exact hpermV.nodup_iff.mpr H2
      · dsimp only
        intro w hw
        rw [odVals_append, odVals_append] at hw
        exact H3 w (hpermV.mem_iff.mp hw)
  · rw [if_neg hfull]
    dsimp only
    have hkProt : k ∉ odKeys c.prot := fun hm =>
      hkNotIn (List.mem_append.mpr (Or.inr hm))
    rw [odSet_of_not_mem v hkProt]
    have hpermK : (odKeys c.probationary ++ (odKeys c.prot ++ [k])).Perm
        (k :: (odKeys c.probationary ++ odKeys c.prot)) := by
      rw [← Multiset.coe_eq_coe]
      simp only [← Multiset.coe_add, ← Multiset.cons_coe,
        ← Multiset.singleton_add, Multiset.coe_nil]
      abel
    have hpermV : (odVals c.probationary ++ (odVals c.prot ++ [v])).Perm
        (v :: (odVals c.probationary ++ odVals c.prot)) := by
      rw [← Multiset.coe_eq_coe]
      simp only [← Multiset.coe_add, ← Multiset.cons_coe,
        ← Multiset.singleton_add, Multiset.coe_nil]
      abel
    refine ⟨?_, ?_, ?_⟩
    · dsimp only
      rw [odKeys_append]
      exact hpermK.nodup_iff.mpr H1
    · dsimp only
      rw [odVals_append]
      exact hpermV.nodup_iff.mpr H2
    · dsimp only
      intro w hw
      rw [odVals_append] at hw
      exact H3 w (hpermV.mem_iff.mp hw)

/-- _insert_missed with the _next_ascii_code factory preserves the code
invariant for a key that misses both segments. -/
theorem insertMissed_codeInv (c : SLRUCache K Nat) (k : K) (h : CodeInv c)
    (hkProb : k ∉ odKeys c.probationary) (hkProt : k ∉ odKeys c.prot) :
    CodeInv (c.insertMissed nextAsciiCode k).2 := by
  obtain ⟨hks, hvs, hrange⟩ := h
  unfold SLRUCache.insertMissed
  by_cases hfull : (c.probationary.length : Int) ≥ c.prob_capacity
  · rw [if_pos hfull]
    cases hcb : c.probationary with
    | nil =>
      dsimp only
      exact ⟨hks, hvs, hrange⟩
    | cons e rest =>
      dsimp only
      have hkRest : k ∉ odKeys rest := by
        intro hm
        apply hkProb
        rw [hcb]
        exact List.mem_cons_of_mem _ hm
      rw [odSet_of_not_mem e.2 hkRest]
      have hKc : odKeys c.probationary = e.1 :: odKeys rest := by rw [hcb]; rfl
      have hVc : odVals c.probationary = e.2 :: odVals rest := by rw [hcb]; rfl
      have hpermK : ((odKeys rest ++ [k]) ++ odKeys c.prot).Perm
          (k :: (odKeys rest ++ odKeys c.prot)) := by
        rw [← Multiset.coe_eq_coe]
        simp only [← Multiset.coe_add, ← Multiset.cons_coe,
          ← Multiset.singleton_add, Multiset.coe_nil]
        abel
      have hpermV : ((odVals rest ++ [e.2]) ++ odVals c.prot).Perm
          (odVals c.probationary ++ odVals c.prot) := by
        rw [hVc, ← Multiset.coe_eq_coe]
        simp only [← Multiset.coe_add, ← Multiset.cons_coe,
          ← Multiset.singleton_add, Multiset.coe_nil]
        abel
      have hnods : (odKeys rest ++ odKeys c.prot).Nodup := by
        rw [hKc, List.cons_append] at hks
        exact (List.nodup_cons.mp hks).2
      refine ⟨?_, ?_, ?_⟩
      · dsimp only
        rw [odKeys_append]
        apply hpermK.nodup_iff.mpr
        apply List.nodup_cons.mpr
        refine ⟨?_, hnods⟩
        intro hm
        rcases List.mem_append.mp hm with hm1 | hm1
        · exact hkRest hm1
        · exact hkProt hm1
      · dsimp only
        rw [odVals_append]
        exact hpermV.nodup_iff.mpr hvs
      · dsimp only
        intro w hw
        rw [odVals_append] at hw
        exact hrange w (hpermV.mem_iff.mp hw)
  · rw [if_neg hfull]
    cases halloc : nextAsciiCode c with
    | error msg =>
      dsimp only
      exact ⟨hks, hvs, hrange⟩
    | ok v =>
      dsimp only
      obtain ⟨hv1, hv2, hv3⟩ := nextAsciiCode_ok halloc
      rw [odSet_of_not_mem v hkProb]
      have hpermK : ((odKeys c.probationary ++ [k]) ++ odKeys c.prot).Perm
          (k :: (odKeys c.probationary ++ odKeys c.prot)) := by
        rw [← Multiset.coe_eq_coe]
        simp only [← Multiset.coe_add, ← Multiset.cons_coe,
          ← Multiset.singleton_add, Multiset.coe_nil]
        abel
      have hpermV : ((odVals c.probationary ++ [v]) ++ odVals c.prot).Perm
          (v :: (odVals c.probationary ++ odVals c.prot)) := by
        rw [← Multiset.coe_eq_coe]
        simp only [← Multiset.coe_add, ← Multiset.cons_coe,
          ← Multiset.singleton_add, Multiset.coe_nil]
        abel
      refine ⟨?_, ?_, ?_⟩
      · dsimp only
        rw [odKeys_append]
        apply hpermK.nodup_iff.mpr
        apply List.nodup_cons.mpr
        refine ⟨?_, hks⟩
        intro hm
        rcases List.mem_append.mp hm with hm1 | hm1
        · exact hkProb hm1
        · exact hkProt hm1
      · dsimp only
        rw [odVals_append]
        apply hpermV.nodup_iff.mpr
        exact List.nodup_cons.mpr ⟨hv3, hvs⟩
      · dsimp only
        intro w hw
        rw [odVals_append] at hw
        rcases List.mem_cons.mp (hpermV.mem_iff.mp hw) with hm | hm
        · subst hm
          exact ⟨hv1, hv2⟩
        · exact hrange w hm

/-- Every lookup with the _next_ascii_code factory preserves the code
bookkeeping invariant of the cache (also when the lookup raises). -/
theorem getItem_codeInv (c : SLRUCache K Nat) (k : K) (h : CodeInv c) :
    CodeInv (c.getItem nextAsciiCode k).2 := by
  obtain ⟨hks, hvs, hrange⟩ := h
  unfold SLRUCache.getItem
  cases hg : odGet c.prot k with
  | some v =>
    dsimp only
    have hndp : (odKeys c.prot).Nodup := (List.nodup_append.mp hks).2.1
    have hKp : (odKeys c.prot).Perm (k :: odKeys (odErase c.prot k)) :=
      odKeys_perm_erase hndp hg
    have hVp : (odVals c.prot).Perm (v :: odVals (odErase c.prot k)) :=
      odVals_perm_erase hndp hg
    refine codeInv_perm ?_ ?_ ⟨hks, hvs, hrange⟩
    · dsimp only
      rw [odKeys_append]
      rw [← Multiset.coe_eq_coe] at hKp ⊢
      simp only [← Multiset.coe_add, ← Multiset.cons_coe,
        ← Multiset.singleton_add, Multiset.coe_nil] at hKp ⊢
      rw [hKp]
      abel
    · dsimp only
      rw [odVals_append]
      rw [← Multiset.coe_eq_coe] at hVp ⊢
      simp only [← Multiset.coe_add, ← Multiset.cons_coe,
        ← Multiset.singleton_add, Multiset.coe_nil] at hVp ⊢
      rw [hVp]
      abel
  | none =>
    have hkNotProt : k ∉ odKeys c.prot := odGet_eq_none_iff.mp hg
    cases hg2 : odGet c.probationary k with
    | some v =>
      dsimp only
      have hndb : (odKeys c.probationary).Nodup := (List.nodup_append.mp hks).1
      have hKb : (odKeys c.probationary).Perm
          (k :: odKeys (odErase c.probationary k)) := odKeys_perm_erase hndb hg2
      have hVb : (odVals c.probationary).Perm
          (v :: odVals (odErase c.probationary k)) := odVals_perm_erase hndb hg2
      have hpk : (k :: (odKeys (odErase c.probationary k) ++ odKeys c.prot)).Perm
          (odKeys c.probationary ++ odKeys c.prot) := by
        rw [← Multiset.coe_eq_coe] at hKb ⊢
        simp only [← Multiset.coe_add, ← Multiset.cons_coe,
          ← Multiset.singleton_add, Multiset.coe_nil] at hKb ⊢
        rw [hKb]
        abel
      have hpv : (v :: (odVals (odErase c.probationary k) ++ odVals c.prot)).Perm
          (odVals c.probationary ++ odVals c.prot) := by
        rw [← Multiset.coe_eq_coe] at hVb ⊢
        simp only [← Multiset.coe_add, ← Multiset.cons_coe,
          ← Multiset.singleton_add, Multiset.coe_nil] at hVb ⊢
        rw [hVb]
        abel
      have hinv := promoteOp_codeInv
        { c with probationary := odErase c.probationary k } k v
        (hpk.nodup_iff.mpr hks) (hpv.nodup_iff.mpr hvs)
        (fun w hw => hrange w (hpv.mem_iff.mp hw))
      rcases hp : SLRUCache.promoteOp
          { c with probationary := odErase c.probationary k } k v with ⟨r, c2⟩
      rw [hp] at hinv
      cases r with
      | ok u =>
        dsimp only
        exact hinv
      | error msg =>
        dsimp only
        exact hinv
    | none =>
      dsimp only
      have hkNotProb : k ∉ odKeys c.probationary := odGet_eq_none_iff.mp hg2
      have hinv := insertMissed_codeInv c k ⟨hks, hvs, hrange⟩ hkNotProb hkNotProt
      rcases hi : SLRUCache.insertMissed c nextAsciiCode k with ⟨r, c2⟩
      rw [hi] at hinv
      cases r with
      | ok u =>
        dsimp only
        exact hinv
      | error msg =>
        dsimp only
        exact hinv

/-! ## C7: codes are unique, in range, and at most 95 -/

/-- C7: in every cache state reachable by lookups and clear() from a fresh
UnicodeCharacterPrinting cache (value factory scanning 0x20..0x7E), a key
is present in at most one segment, the device codes stored across both
segments are pairwise distinct and lie in 0x20..0x7E, and the number of
distinct codes held never exceeds the total capacity 95 (the size of the
code range). -/
theorem ucp_code_invariant (p : Int) (c : SLRUCache (List Nat) Nat)
    (h : ReachableUCP p c) :
    (∀ k, ¬ (k ∈ odKeys c.probationary ∧ k ∈ odKeys c.prot)) ∧
    (odVals c.probationary ++ odVals c.prot).Nodup ∧
    (∀ v ∈ odVals c.probationary ++ odVals c.prot,
      char_first ≤ v ∧ v ≤ char_last) ∧
    (odVals c.probationary ++ odVals c.prot).length ≤ 95 := by
  have hinv : CodeInv c := by
    induction h with
    | start c0 hc =>
      unfold UnicodeCharacterPrinting.init SLRUCache.init at hc
      rw [if_neg (by decide)] at hc
      by_cases hp2 : p ≥ (char_last : Int) - (char_first : Int) + 1
      · rw [if_pos hp2] at hc
        cases hc
      · rw [if_neg hp2] at hc
        cases hc
        refine ⟨?_, ?_, ?_⟩ <;> simp [odKeys, odVals]
    | lookup c0 k hr ih => exact getItem_codeInv c0 k ih
    | clearStep c0 hr ih =>
      refine ⟨?_, ?_, ?_⟩ <;> simp [SLRUCache.clear, odKeys, odVals]
  obtain ⟨h1, h2, h3⟩ := hinv
  refine ⟨?_, h2, h3, ?_⟩
  · intro k hk
    exact (List.nodup_append.mp h1).2.2 hk.1 hk.2
  · have hsub : (odVals c.probationary ++ odVals c.prot) ⊆
        List.range' char_first 95 := by
      intro v hv
      rw [List.mem_range'_1]
      have hb := h3 v hv
      simp only [char_first, char_last] at hb ⊢
      omega
    have hlen := (h2.subperm hsub).length_le
    simpa using hlen

/-- Witness for ucp_code_invariant: the state after one lookup from the
fresh default cache. -/
theorem ucp_code_invariant_witness :
    (∀ k, ¬ (k ∈ odKeys ((ucpFresh.getItem nextAsciiCode [65]).2).probationary ∧
      k ∈ odKeys ((ucpFresh.getItem nextAsciiCode [65]).2).prot)) ∧
    (odVals ((ucpFresh.getItem nextAsciiCode [65]).2).probationary ++
      odVals ((ucpFresh.getItem nextAsciiCode [65]).2).prot).Nodup ∧
    (∀ v ∈ odVals ((ucpFresh.getItem nextAsciiCode [65]).2).probationary ++
      odVals ((ucpFresh.getItem nextAsciiCode [65]).2).prot,
      char_first ≤ v ∧ v ≤ char_last) ∧
    (odVals ((ucpFresh.getItem nextAsciiCode [65]).2).probationary ++
      odVals ((ucpFresh.getItem nextAsciiCode [65]).2).prot).length ≤ 95 :=
  ucp_code_invariant 8 _
    (ReachableUCP.lookup ucpFresh [65] (ReachableUCP.start ucpFresh rfl))

/-! ## C6: segment sizes never exceed the configured capacities -/

/-- C6: for every configuration with 0 < probationary_capacity <
total_capacity and every finite sequence of lookups starting from a fresh
cache, the protected segment holds at most total − probationary entries and
the probationary segment holds at most probationary_capacity entries. -/
theorem slru_capacity_invariant {K V : Type} [DecidableEq K] (t p : Int)
    (h0 : 0 < p) (h1 : p < t) (c0 : SLRUCache K V)
    (hc0 : SLRUCache.init t p = .ok c0)
    (alloc : SLRUCache K V → Except String V) (ks : List K) :
    (((c0.runTrace alloc ks).prot.length : Int) ≤ t - p) ∧
    (((c0.runTrace alloc ks).probationary.length : Int) ≤ p) := by
  have hc : c0 = ⟨t, p, t - p, [], []⟩ := by
    unfold SLRUCache.init at hc0
    rw [if_neg (by omega), if_neg (by omega)] at hc0
    cases hc0
    rfl
  subst hc
  obtain ⟨_, _, h3, h4⟩ := runTrace_bounds alloc ks
    ⟨t, p, t - p, [], []⟩ (by simp; omega) (by simp; omega)
  exact ⟨h4, h3⟩

/-- Witness for slru_capacity_invariant: total 4, probationary 2, constant
factory, trace 0, 1, 0, 2, 3. -/
theorem slru_capacity_invariant_witness :
    ((((⟨4, 2, 2, [], []⟩ : SLRUCache Nat Nat).runTrace
        (fun _ => .ok 0) [0, 1, 0, 2, 3]).prot.length : Int) ≤ 4 - 2) ∧
    ((((⟨4, 2, 2, [], []⟩ : SLRUCache Nat Nat).runTrace
        (fun _ => .ok 0) [0, 1, 0, 2, 3]).probationary.length : Int) ≤ 2) :=
  slru_capacity_invariant 4 2 (by decide) (by decide) _ rfl
    (fun _ => .ok 0) [0, 1, 0, 2, 3]

/-! ## Transcoder lemmas (claims C5 and C1 infrastructure) -/

theorem and_mask_testBit (n x : Nat) (hx : x < 8) :
    (n &&& (0x80 >>> x) ≠ 0) ↔ n.testBit (7 - x) := by
  rw [show (0x80 : Nat) >>> x = 2 ^ (7 - x) from by interval_cases x <;> rfl]
  simp [Nat.and_two_pow]

theorem fontbStep_length (src dst : List Nat) (y x : Nat) :
    (fontbStep src dst y x).length = dst.length := by
  unfold fontbStep fontbSet
  split
  · simp
  · rfl

theorem fontbRow_length (src : List Nat) (y : Nat) :
    ∀ (xs : List Nat) (dst : List Nat),
      (xs.foldl (fun d x => fontbStep src d y x) dst).length = dst.length := by
  intro xs
  induction xs with
  | nil => intro dst; rfl
  | cons x xs ih =>
    intro dst
    rw [List.foldl_cons, ih, fontbStep_length]

theorem fontbCore_length (src : List Nat) : (fontbCore src).length = 24 := by
  unfold fontbCore
  have hrows : ∀ (ys : List Nat) (dst : List Nat),
      (ys.foldl (fun d y => (List.range 8).foldl
        (fun d x => fontbStep src d y x) d) dst).length = dst.length := by
    intro ys
    induction ys with
    | nil => intro dst; rfl
    | cons y ys ih =>
      intro dst
      rw [List.foldl_cons, ih, fontbRow_length]
  rw [hrows]
  simp

theorem fontbStep_testBit (src dst : List Nat) (y x b j : Nat)
    (hlen : dst.length = 24) (hy : y < 16) (hx : x < 8) :
    (((fontbStep src dst y x).getD b 0).testBit j ↔
      ((dst.getD b 0).testBit j ∨
        (src.getD y 0 &&& (0x80 >>> x) ≠ 0 ∧ x * 3 + y / 8 = b ∧ 7 - y % 8 = j))) := by
  unfold fontbStep
  by_cases hcond : src.getD y 0 &&& (0x80 >>> x) ≠ 0
  · rw [if_pos hcond]
    unfold fontbSet
    have hp : x * 3 + y / 8 < dst.length := by omega
    by_cases hb : x * 3 + y / 8 = b
    · subst hb
      have hset : (dst.set (x * 3 + y / 8)
          (dst.getD (x * 3 + y / 8) 0 ||| 1 <<< (7 - y % 8))).getD (x * 3 + y / 8) 0 =
          dst.getD (x * 3 + y / 8) 0 ||| 1 <<< (7 - y % 8) := by
        simp [List.getD_eq_getElem?_getD, List.getElem?_set, hp]
      rw [hset, Nat.testBit_or, Nat.one_shiftLeft, Nat.testBit_two_pow]
      simp only [Bool.or_eq_true, decide_eq_true_eq]
      constructor
      · rintro (hj | hj)
        · exact Or.inl hj
        · exact Or.inr ⟨hcond, trivial, hj⟩
      · rintro (hj | ⟨_, _, hj⟩)
        · exact Or.inl hj
        · exact Or.inr hj
    · have hset : (dst.set (x * 3 + y / 8)
          (dst.getD (x * 3 + y / 8) 0 ||| 1 <<< (7 - y % 8))).getD b 0 =
          dst.getD b 0 := by
        simp [List.getD_eq_getElem?_getD, List.getElem?_set, hb]
      rw [hset]
      constructor
      · exact Or.inl
      · rintro (hj | ⟨_, hb2, _⟩)
        · exact hj
        · exact absurd hb2 hb
  · rw [if_neg hcond]
    constructor
    · exact Or.inl
    · rintro (hj | ⟨hc, _, _⟩)
      · exact hj
      · exact absurd hc hcond

theorem fontbRow_testBit (src : List Nat) (y : Nat) (hy : y < 16) :
    ∀ (xs : List Nat) (dst : List Nat), dst.length = 24 → (∀ x ∈ xs, x < 8) →
    ∀ b j,
    (((xs.foldl (fun d x => fontbStep src d y x) dst).getD b 0).testBit j ↔
      ((dst.getD b 0).testBit j ∨
        ∃ x ∈ xs, src.getD y 0 &&& (0x80 >>> x) ≠ 0 ∧
          x * 3 + y / 8 = b ∧ 7 - y % 8 = j)) := by
  intro xs
  induction xs with
  | nil =>
    intro dst hlen hxs b j
    simp
  | cons x xs ih =>
    intro dst hlen hxs b j
    rw [List.foldl_cons]
    rw [ih (fontbStep src dst y x) (by rw [fontbStep_length, hlen])
      (fun u hu => hxs u (List.mem_cons_of_mem _ hu)) b j]
    rw [fontbStep_testBit src dst y x b j hlen hy (hxs x (List.mem_cons_self _ _))]
    constructor
    · rintro ((hd | hx1) | ⟨u, hu, hrest⟩)
      · exact Or.inl hd
      · exact Or.inr ⟨x, List.mem_cons_self _ _, hx1⟩
      · exact Or.inr ⟨u, List.mem_cons_of_mem _ hu, hrest⟩
    · rintro (hd | ⟨u, hu, hrest⟩)
      · exact Or.inl (Or.inl hd)
      · rcases List.mem_cons.mp hu with rfl | hu2
        · exact Or.inl (Or.inr hrest)
        · exact Or.inr ⟨u, hu2, hrest⟩

theorem fontbRows_testBit (src : List Nat) :
    ∀ (ys : List Nat) (dst : List Nat), dst.length = 24 → (∀ y ∈ ys, y < 16) →
    ∀ b j,
    (((ys.foldl (fun d y => (List.range 8).foldl
        (fun d x => fontbStep src d y x) d) dst).getD b 0).testBit j ↔
      ((dst.getD b 0).testBit j ∨
        ∃ y ∈ ys, ∃ x, x < 8 ∧ src.getD y 0 &&& (0x80 >>> x) ≠ 0 ∧
          x * 3 + y / 8 = b ∧ 7 - y % 8 = j)) := by
  intro ys
  induction ys with
  | nil =>
    intro dst hlen hys b j
    simp
  | cons y ys ih =>
    intro dst hlen hys b j
    rw [List.foldl_cons]
    rw [ih ((List.range 8).foldl (fun d x => fontbStep src d y x) dst)
      (by rw [fontbRow_length, hlen])
      (fun u hu => hys u (List.mem_cons_of_mem _ hu)) b j]
    rw [fontbRow_testBit src y (hys y (List.mem_cons_self _ _)) (List.range 8) dst hlen
      (fun u hu => List.mem_range.mp hu) b j]
    constructor
    · rintro ((hd | ⟨u, hu, hrest⟩) | ⟨w, hw, hrest⟩)
      · exact Or.inl hd
      · exact Or.inr ⟨y, List.mem_cons_self _ _, u, List.mem_range.mp hu, hrest⟩
      · exact Or.inr ⟨w, List.mem_cons_of_mem _ hw, hrest⟩
    · rintro (hd | ⟨w, hw, u, hu, hrest⟩)
      · exact Or.inl (Or.inl hd)
      · rcases List.mem_cons.mp hw with rfl | hw2
        · exact Or.inl (Or.inr ⟨u, List.mem_range.mpr hu, hrest⟩)
        · exact Or.inr ⟨w, hw2, u, hu, hrest⟩

/-- Closed-form characterisation of the bits of the transcoded core block:
the bit at destination byte b, bit position j, is set exactly when some
source bit maps there under the rotation new_x = y, new_y = x. -/
theorem fontbCore_testBit (src : List Nat) (b j : Nat) :
    (((fontbCore src).getD b 0).testBit j ↔
      ∃ y, y < 16 ∧ ∃ x, x < 8 ∧ src.getD y 0 &&& (0x80 >>> x) ≠ 0 ∧
        x * 3 + y / 8 = b ∧ 7 - y % 8 = j) := by
  unfold fontbCore
  rw [fontbRows_testBit src (List.range 16) (List.replicate 24 0) (by simp)
    (fun u hu => List.mem_range.mp hu) b j]
  have hz : ((List.replicate 24 (0 : Nat)).getD b 0) = 0 := by
    rw [List.getD_eq_getElem?_getD, List.getElem?_replicate]
    split <;> rfl
  rw [hz]
  simp only [Nat.zero_testBit, Bool.false_eq_true, false_or]
  constructor
  · rintro ⟨y, hy, rest⟩
    exact ⟨y, List.mem_range.mp hy, rest⟩
  · rintro ⟨y, hy, rest⟩
    exact ⟨y, List.mem_range.mpr hy, rest⟩

theorem unifont_to_fontb_eq16 {src : List Nat} (h : src.length = 16) :
    unifont_to_fontb src = .ok [fontbCore src] := by
  unfold unifont_to_fontb
  rw [if_pos h]

theorem sliceStep2_length (src : List Nat) (start : Nat) :
    (sliceStep2 src start).length = (src.length - start + 1) / 2 := by
  simp [sliceStep2]

theorem sliceStep2_getD (src : List Nat) (start i : Nat)
    (h : i < (src.length - start + 1) / 2) :
    (sliceStep2 src start).getD i 0 = src.getD (start + 2 * i) 0 := by
  unfold sliceStep2
  rw [List.getD_eq_getElem?_getD, List.getElem?_map, List.getElem?_range
    (by simpa using h)]
  rfl

theorem unifont_to_fontb_eq32 {src : List Nat} (h : src.length = 32) :
    unifont_to_fontb src =
      .ok [List.replicate 3 0 ++ fontbCore (sliceStep2 src 0),
        fontbCore (sliceStep2 src 1)] := by
  unfold unifont_to_fontb
  rw [if_neg (by omega), if_pos h,
    unifont_to_fontb_eq16 (by rw [sliceStep2_length]; omega)]
  rfl

/-! ## C5: the 16-byte rotation -/

/-- C5: a 16-byte bitmap transcodes to exactly one 24-byte block; the bit
at source row y (0..15), source column x (0..7) appears at destination row
x, destination column y (byte x*3 + y/8, bit 7 - y%8, most significant bit
first); the third byte of every destination row is zero and every output
byte is below 256, so no other bits are set. -/
theorem unifont16_rotation (src : List Nat) (h : src.length = 16) :
    unifont_to_fontb src = .ok [fontbCore src] ∧
    (fontbCore src).length = 24 ∧
    (∀ x, x < 8 → ∀ y, y < 16 →
      (((fontbCore src).getD (x * 3 + y / 8) 0).testBit (7 - y % 8) ↔
        (src.getD y 0).testBit (7 - x))) ∧
    (∀ x, x < 8 → (fontbCore src).getD (x * 3 + 2) 0 = 0) ∧
    (∀ i, (fontbCore src).getD i 0 < 256) := by
  refine ⟨unifont_to_fontb_eq16 h, fontbCore_length src, ?_, ?_, ?_⟩
  · intro x hx y hy
    rw [fontbCore_testBit]
    constructor
    · rintro ⟨y1, hy1, x1, hx1, hcond, hb, hj⟩
      have hxx : x1 = x ∧ y1 = y := by omega
      obtain ⟨rfl, rfl⟩ := hxx
      exact (and_mask_testBit _ _ hx1).mp hcond
    · intro hbit
      exact ⟨y, hy, x, hx, (and_mask_testBit _ _ hx).mpr hbit, rfl, rfl⟩
  · intro x hx
    apply Nat.eq_of_testBit_eq
    intro j
    rw [Nat.zero_testBit, Bool.eq_false_iff, ne_eq]
    intro hbit
    rw [fontbCore_testBit] at hbit
    obtain ⟨y1, hy1, x1, hx1, _, hb, _⟩ := hbit
    omega
  · intro i
    have hb : ∀ j, j ≥ 8 → ((fontbCore src).getD i 0).testBit j = false := by
      intro j hj
      rw [Bool.eq_false_iff, ne_eq]
      intro hbit
      rw [fontbCore_testBit] at hbit
      obtain ⟨y1, hy1, x1, hx1, _, _, hjj⟩ := hbit
      omega
    exact Nat.lt_pow_two_of_testBit ((fontbCore src).getD i 0) hb

/-- Witness for unifont16_rotation at the all-zero 16-byte bitmap, also
checking that the output block is the all-zero 24-byte block. -/
theorem unifont16_rotation_witness :
    ((List.replicate 16 (0 : Nat)).length = 16) ∧
    (unifont_to_fontb (List.replicate 16 (0 : Nat)) =
        .ok [fontbCore (List.replicate 16 0)] ∧
      (fontbCore (List.replicate 16 (0 : Nat))).length = 24 ∧
      (∀ x, x < 8 → ∀ y, y < 16 →
        (((fontbCore (List.replicate 16 (0 : Nat))).getD (x * 3 + y / 8) 0).testBit
            (7 - y % 8) ↔
          ((List.replicate 16 (0 : Nat)).getD y 0).testBit (7 - x))) ∧
      (∀ x, x < 8 → (fontbCore (List.replicate 16 (0 : Nat))).getD (x * 3 + 2) 0 = 0) ∧
      (∀ i, (fontbCore (List.replicate 16 (0 : Nat))).getD i 0 < 256)) ∧
    fontbCore (List.replicate 16 (0 : Nat)) = List.replicate 24 0 :=
  ⟨by decide, unifont16_rotation _ (by decide), by decide⟩

/-! ## C1: the 32-byte double-width path -/

/-- C1 (amended): a 32-byte bitmap is deinterleaved into the even-indexed
bytes (transcoded into the first output block) and the odd-indexed bytes
(transcoded into the second output block), each half independently; the
3-byte all-zero row is prepended to the FIRST block only, so the first
block is exactly 3 bytes longer than the second and the first block's
first 3 bytes are zero. -/
theorem unifont32_blocks (src : List Nat) (h : src.length = 32) :
    unifont_to_fontb src =
      .ok [List.replicate 3 0 ++ fontbCore (sliceStep2 src 0),
        fontbCore (sliceStep2 src 1)] ∧
    (sliceStep2 src 0).length = 16 ∧
    (sliceStep2 src 1).length = 16 ∧
    (∀ i, i < 16 → (sliceStep2 src 0).getD i 0 = src.getD (2 * i) 0) ∧
    (∀ i, i < 16 → (sliceStep2 src 1).getD i 0 = src.getD (2 * i + 1) 0) ∧
    (List.replicate 3 0 ++ fontbCore (sliceStep2 src 0)).length =
      (fontbCore (sliceStep2 src 1)).length + 3 ∧
    (∀ i, i < 3 → (List.replicate 3 0 ++ fontbCore (sliceStep2 src 0)).getD i 1 = 0) := by
  refine ⟨unifont_to_fontb_eq32 h, ?_, ?_, ?_, ?_, ?_, ?_⟩
  · rw [sliceStep2_length]; omega
  · rw [sliceStep2_length]; omega
  · intro i hi
    rw [sliceStep2_getD src 0 i (by omega)]
    norm_num
  · intro i hi
    rw [sliceStep2_getD src 1 i (by omega)]
    congr 1
    omega
  · rw [List.length_append, fontbCore_length, fontbCore_length, List.length_replicate]
  · intro i hi
    rw [List.getD_eq_getElem?_getD, List.getElem?_append, List.length_replicate,
      if_pos (by omega), List.getElem?_replicate, if_pos hi]
    rfl

/-- Witness for unifont32_blocks at the all-zero 32-byte bitmap. -/
theorem unifont32_blocks_witness :
    unifont_to_fontb (List.replicate 32 (0 : Nat)) =
      .ok [List.replicate 3 0 ++ fontbCore (sliceStep2 (List.replicate 32 0) 0),
        fontbCore (sliceStep2 (List.replicate 32 0) 1)] ∧
    (sliceStep2 (List.replicate 32 (0 : Nat)) 0).length = 16 ∧
    (sliceStep2 (List.replicate 32 (0 : Nat)) 1).length = 16 ∧
    (∀ i, i < 16 → (sliceStep2 (List.replicate 32 (0 : Nat)) 0).getD i 0 =
      (List.replicate 32 (0 : Nat)).getD (2 * i) 0) ∧
    (∀ i, i < 16 → (sliceStep2 (List.replicate 32 (0 : Nat)) 1).getD i 0 =
      (List.replicate 32 (0 : Nat)).getD (2 * i + 1) 0) ∧
    (List.replicate 3 0 ++ fontbCore (sliceStep2 (List.replicate 32 (0 : Nat)) 0)).length =
      (fontbCore (sliceStep2 (List.replicate 32 (0 : Nat)) 1)).length + 3 ∧
    (∀ i, i < 3 →
      (List.replicate 3 0 ++
        fontbCore (sliceStep2 (List.replicate 32 (0 : Nat)) 0)).getD i 1 = 0) :=
  unifont32_blocks _ (by decide)

/-- C1 counterexample: on the all-zero 32-byte bitmap the transcoder
returns a 27-byte first block and a 24-byte second block — the padding row
is prepended to the first block, so the second block is NOT 3 bytes longer
than the first as the claim states. -/
theorem unifont32_pad_counterexample :
    ∃ b1 b2, unifont_to_fontb (List.replicate 32 (0 : Nat)) = .ok [b1, b2] ∧
      b1.length = 27 ∧ b2.length = 24 ∧
      ¬ (b2.length = b1.length + 3) ∧ b1.take 3 = [0, 0, 0] := by
  refine ⟨_, _, unifont_to_fontb_eq32 (by decide), ?_, ?_, ?_, ?_⟩ <;> decide

/-! ## C9: constructor validation -/

/-- C9 (amended): cache construction fails with an invalid-configuration
error exactly when total_capacity ≤ 0 or prob_capacity ≥ total_capacity;
every successfully constructed cache has prot_capacity = total − prob
strictly positive, but its probationary capacity may be zero or negative:
the constructor does not require prob_capacity > 0. -/
theorem init_config_validation {K V : Type} (t p : Int) :
    ((∃ e, SLRUCache.init (K := K) (V := V) t p = .error e) ↔ t ≤ 0 ∨ p ≥ t) ∧
    (∀ c : SLRUCache K V, SLRUCache.init t p = .ok c →
      c.total_capacity = t ∧ c.prob_capacity = p ∧
      c.prot_capacity = t - p ∧ 0 < c.prot_capacity) := by
  unfold SLRUCache.init
  by_cases h1 : t ≤ 0
  · simp [h1]
  · by_cases h2 : p ≥ t
    · simp [h1, h2]
    · simp only [if_neg h1, if_neg h2]
      constructor
      · simp only [reduceCtorEq, exists_false, false_iff]
        omega
      · intro c hc
        cases hc
        refine ⟨rfl, rfl, rfl, ?_⟩
        show (0 : Int) < t - p
        omega

/-- Witness for init_config_validation at total 4, probationary 2. -/
theorem init_config_validation_witness :
    SLRUCache.init (K := Nat) (V := Nat) 4 2 = .ok ⟨4, 2, 2, [], []⟩ ∧
    ((⟨4, 2, 2, [], []⟩ : SLRUCache Nat Nat).total_capacity = 4 ∧
      (⟨4, 2, 2, [], []⟩ : SLRUCache Nat Nat).prob_capacity = 2 ∧
      (⟨4, 2, 2, [], []⟩ : SLRUCache Nat Nat).prot_capacity = 4 - 2 ∧
      0 < (⟨4, 2, 2, [], []⟩ : SLRUCache Nat Nat).prot_capacity) :=
  ⟨rfl, (init_config_validation 4 2).2 _ rfl⟩

/-- C9 counterexample: the constructor accepts total_capacity = 5 with
prob_capacity = 0, and the constructed cache has probationary capacity 0,
refuting the claim that every constructed cache has both capacities
strictly positive. -/
theorem init_zero_prob_accepted :
    SLRUCache.init (K := Nat) (V := Nat) 5 0 = .ok ⟨5, 0, 5, [], []⟩ ∧
    ¬ 0 < (⟨5, 0, 5, [], []⟩ : SLRUCache Nat Nat).prob_capacity :=
  ⟨rfl, by decide⟩

/-! ## C10: prob_capacity = 0 makes every miss fail -/

/-- C10: with probationary capacity 0 and positive total capacity the
constructor succeeds, but every lookup of an uncached key reaches the
eviction path of the empty probationary segment and raises KeyError (with
the state unchanged); consequently no sequence of lookups ever caches a
key. -/
theorem zero_prob_never_caches {K V : Type} [DecidableEq K] (t : Int)
    (ht : 0 < t) (alloc : SLRUCache K V → Except String V) (ks : List K) :
    ∃ c : SLRUCache K V, SLRUCache.init t 0 = .ok c ∧
      c.probationary = [] ∧ c.prot = [] ∧
      (∀ k, (c.getItem alloc k).1 = .error "KeyError: dictionary is empty" ∧
        (c.getItem alloc k).2 = c) ∧
      c.runTrace alloc ks = c := by
  have hstep : ∀ k : K, ((⟨t, 0, t, [], []⟩ : SLRUCache K V).getItem alloc k) =
      (.error "KeyError: dictionary is empty", ⟨t, 0, t, [], []⟩) := fun _ => rfl
  refine ⟨⟨t, 0, t, [], []⟩, ?_, rfl, rfl,
    fun k => ⟨by rw [hstep], by rw [hstep]⟩, ?_⟩
  · unfold SLRUCache.init
    rw [if_neg (by omega), if_neg (by omega)]
    simp only [Int.sub_zero]
  · induction ks with
    | nil => rfl
    | cons k ks ih =>
      simp only [SLRUCache.runTrace, List.foldl_cons, hstep] at ih ⊢
      exact ih

/-- Witness for zero_prob_never_caches at total 3 with a constant factory
and the trace 1, 2, 1. -/
theorem zero_prob_never_caches_witness :
    ∃ c : SLRUCache Nat Nat, SLRUCache.init 3 0 = .ok c ∧
      c.probationary = [] ∧ c.prot = [] ∧
      (∀ k, (c.getItem (fun _ => .ok 0) k).1 = .error "KeyError: dictionary is empty" ∧
        (c.getItem (fun _ => .ok 0) k).2 = c) ∧
      c.runTrace (fun _ => .ok 0) [1, 2, 1] = c :=
  zero_prob_never_caches 3 (by decide) (fun _ => .ok 0) [1, 2, 1]

/-! ## C8: the deterministic access trace A, B, A, C, D, E -/

/-- C8: with total_capacity 4 and probationary_capacity 2, the access
sequence A, B, A, C, D, E (keys 0..4, codes allocated by
_next_ascii_code) yields: A miss (code 0x20); B miss (0x21); A hit,
promoted to Protected; C miss (0x22, probationary then holds B and C);
D miss evicting B and recycling B's code 0x21 as D's value; E miss
evicting C and recycling C's code 0x22 as E's value. -/
theorem slru_trace_ABACDE :
    SLRUCache.init (K := Nat) (V := Nat) 4 2 = .ok c8s0 ∧
    c8s1.1 = .ok (0x20, false) ∧
    c8s2.1 = .ok (0x21, false) ∧
    (c8s3.1 = .ok (0x20, true) ∧ odGet c8s3.2.prot 0 = some 0x20 ∧
      odGet c8s3.2.probationary 0 = none) ∧
    (c8s4.1 = .ok (0x22, false) ∧ odKeys c8s4.2.probationary = [1, 2]) ∧
    (c8s5.1 = .ok (0x21, false) ∧ odGet c8s5.2.probationary 1 = none ∧
      odGet c8s5.2.prot 1 = none ∧ odGet c8s5.2.probationary 3 = some 0x21) ∧
    (c8s6.1 = .ok (0x22, false) ∧ odGet c8s6.2.probationary 2 = none ∧
      odGet c8s6.2.prot 2 = none ∧ odGet c8s6.2.probationary 4 = some 0x22) :=
  ⟨rfl, rfl, rfl, ⟨rfl, rfl, rfl⟩, ⟨rfl, rfl⟩, ⟨rfl, rfl, rfl, rfl⟩,
    ⟨rfl, rfl, rfl, rfl⟩⟩

/-! ## Text driver lemmas (claims C2, C3, C4 infrastructure) -/

theorem halfStep_out (s : PrinterState) (codes key block : List Nat) :
    ∃ t, (halfStep s codes key block).2.1.out = s.out ++ t := by
  unfold halfStep
  dsimp only
  cases hr : (s.cache.getItem nextAsciiCode key).1 with
  | error e => exact ⟨[], by simp⟩
  | ok p =>
    obtain ⟨code, hit⟩ := p
    dsimp only
    cases hit with
    | true => exact ⟨[], by simp⟩
    | false =>
      unfold defineUdc
      by_cases hlen : block.length > 27
      · rw [if_pos hlen]
        exact ⟨[], by simp⟩
      · rw [if_neg hlen]
        dsimp only [rawEmit]
        exact ⟨[.raw ([ESCb, 0x26, 0x03, code, code, block.length / 3] ++ block),
          .raw (codes ++ [code])], by simp⟩

theorem glyphChar_out (s : PrinterState) (codes : List Nat) (char : Nat)
    (bitmap : List (List Nat)) :
    ∃ t, (glyphChar s codes char bitmap).2.1.out = s.out ++ t := by
  unfold glyphChar
  obtain ⟨t1, ht1⟩ := halfStep_out s codes [char] (bitmap.getD 0 [])
  rcases h1 : halfStep s codes [char] (bitmap.getD 0 []) with ⟨r1, s1, codes1⟩
  rw [h1] at ht1
  cases r1 with
  | error e => exact ⟨t1, ht1⟩
  | ok u =>
    dsimp only
    by_cases h2 : bitmap.length = 2
    · rw [if_pos h2]
      obtain ⟨t2, ht2⟩ := halfStep_out s1 codes1 [0x5F, char] (bitmap.getD 1 [])
      refine ⟨t1 ++ t2, ?_⟩
      rw [ht2, ht1, List.append_assoc]
    · rw [if_neg h2]
      exact ⟨t1, ht1⟩

theorem textChar_out (font : Nat → Option (List (List Nat))) (s : PrinterState)
    (codes : List Nat) (char : Nat) :
    ∃ t, (textChar font s codes char).2.1.out = s.out ++ t := by
  unfold textChar
  by_cases hcc : isCc char = true
  · rw [if_pos hcc]
    exact ⟨[], by simp⟩
  · rw [if_neg hcc]
    cases font char with
    | some bitmap => exact glyphChar_out s codes char bitmap
    | none =>
      dsimp only
      cases font 0x3F with
      | some bitmap => exact glyphChar_out s codes char bitmap
      | none => exact ⟨[], by simp⟩

theorem textLoop_out (font : Nat → Option (List (List Nat))) :
    ∀ (txt : List Nat) (s : PrinterState) (codes : List Nat),
      ∃ t, (textLoop font txt s codes).2.1.out = s.out ++ t := by
  intro txt
  induction txt with
  | nil =>
    intro s codes
    exact ⟨[], by simp [textLoop]⟩
  | cons ch rest ih =>
    intro s codes
    unfold textLoop
    obtain ⟨t1, ht1⟩ := textChar_out font s codes ch
    rcases hc : textChar font s codes ch with ⟨r1, s1, codes1⟩
    rw [hc] at ht1
    cases r1 with
    | error e => exact ⟨t1, ht1⟩
    | ok u =>
      dsimp only
      obtain ⟨t2, ht2⟩ := ih s1 codes1
      refine ⟨t1 ++ t2, ?_⟩
      rw [ht2, ht1, List.append_assoc]

/-! ## C3: mode bracketing -/

/-- C3 (amended): for every input (including the empty string) the driver
emits the select-user-defined-character-mode command before any character
is processed; when text() returns normally its last emitted command is the
cancel command — but the cancel is NOT emitted when an error is raised
while processing a character (text() has no try/finally), in which case
the function stops with the commands emitted so far. -/
theorem text_select_cancel (font : Nat → Option (List (List Nat)))
    (cache : SLRUCache (List Nat) Nat) (txt : List Nat) :
    (text font cache txt).2.out.take 2 =
      [DeviceCmd.setFont, DeviceCmd.raw [ESCb, 0x25, 0x01]] ∧
    ((text font cache txt).1 = .ok () →
      (text font cache txt).2.out.getLast? =
        some (DeviceCmd.raw [ESCb, 0x25, 0x00])) := by
  unfold text
  dsimp only
  obtain ⟨t, ht⟩ := textLoop_out font txt
    (selectUdc { cache := cache, out := [DeviceCmd.setFont] }) []
  rcases hl : textLoop font txt
      (selectUdc { cache := cache, out := [DeviceCmd.setFont] }) [] with ⟨r, s2, codes⟩
  rw [hl] at ht
  have ht2 : s2.out = [DeviceCmd.setFont, DeviceCmd.raw [ESCb, 0x25, 0x01]] ++ t := by
    rw [ht]
    rfl
  cases r with
  | error e =>
    dsimp only
    constructor
    · rw [ht2]
      have := @List.take_left DeviceCmd
        [DeviceCmd.setFont, DeviceCmd.raw [ESCb, 0x25, 0x01]] t
      simpa using this
    · intro h
      exact Except.noConfusion h
  | ok u =>
    dsimp only [cancelUdc, rawEmit]
    constructor
    · by_cases hc : codes.isEmpty
      · rw [if_pos hc]
        rw [ht2, List.append_assoc]
        have := @List.take_left DeviceCmd
          [DeviceCmd.setFont, DeviceCmd.raw [ESCb, 0x25, 0x01]]
          (t ++ [DeviceCmd.raw [ESCb, 0x25, 0x00]])
        simpa using this
      · rw [if_neg hc]
        dsimp only [rawEmit]
        rw [ht2, List.append_assoc, List.append_assoc]
        have := @List.take_left DeviceCmd
          [DeviceCmd.setFont, DeviceCmd.raw [ESCb, 0x25, 0x01]]
          (t ++ ([DeviceCmd.raw codes] ++ [DeviceCmd.raw [ESCb, 0x25, 0x00]]))
        simpa using this
    · intro _
      by_cases hc : codes.isEmpty
      · rw [if_pos hc]
        exact List.getLast?_concat _
      · rw [if_neg hc]
        exact List.getLast?_concat _

/-- Witness for text_select_cancel: a successful one-character render. -/
theorem text_select_cancel_witness :
    (text fontGood ucpFresh [65]).2.out.take 2 =
      [DeviceCmd.setFont, DeviceCmd.raw [ESCb, 0x25, 0x01]] ∧
    (text fontGood ucpFresh [65]).2.out.getLast? =
      some (DeviceCmd.raw [ESCb, 0x25, 0x00]) :=
  ⟨(text_select_cancel fontGood ucpFresh [65]).1,
    (text_select_cancel fontGood ucpFresh [65]).2 rfl⟩

/-- C3 counterexample: with a font whose glyph block for A is 28 bytes,
text("A") raises inside the loop and the cancel-user-defined-character
command is never emitted — the output stops after mode-select, refuting
the unconditional cancel of the claim. -/
theorem text_cancel_missing_counterexample :
    (text fontOversize ucpFresh [65]).1 =
      .error "bitmap too large, maximum 27 bytes for font B." ∧
    (text fontOversize ucpFresh [65]).2.out =
      [DeviceCmd.setFont, DeviceCmd.raw [27, 37, 1]] ∧
    DeviceCmd.raw [27, 37, 0] ∉ (text fontOversize ucpFresh [65]).2.out :=
  ⟨rfl, rfl, by decide⟩

/-! ## C2: order of slot definition and buffer flush on a miss -/

/-- C2 (amended): on every cache miss (with a well-sized block) the driver
appends the newly allocated code to the pending buffer, emits the
define-slot command for that code, and only then transmits the pending
buffer — which ends with the new code — to the sink and clears it.  The
define-slot command therefore precedes the flush of the buffer, not the
other way round. -/
theorem text_miss_define_then_flush (s : PrinterState)
    (codes key block : List Nat) (code : Nat)
    (hmiss : (s.cache.getItem nextAsciiCode key).1 = .ok (code, false))
    (hlen : ¬ block.length > 27) :
    (halfStep s codes key block).1 = .ok () ∧
    (halfStep s codes key block).2.1.out =
      s.out ++ [.raw ([ESCb, 0x26, 0x03, code, code, block.length / 3] ++ block),
        .raw (codes ++ [code])] ∧
    (halfStep s codes key block).2.2 = [] := by
  unfold halfStep
  dsimp only
  rw [hmiss]
  dsimp only
  unfold defineUdc
  rw [if_neg hlen]
  dsimp only [rawEmit]
  exact ⟨rfl, by simp, rfl⟩

/-- Witness for text_miss_define_then_flush: a miss on the fresh default
cache with a 24-byte block. -/
theorem text_miss_define_then_flush_witness :
    (halfStep ⟨ucpFresh, []⟩ [] [65] (List.replicate 24 0)).1 = .ok () ∧
    (halfStep ⟨ucpFresh, []⟩ [] [65] (List.replicate 24 0)).2.1.out =
      ([] : List DeviceCmd) ++
        [.raw ([ESCb, 0x26, 0x03, 32, 32, (List.replicate 24 (0 : Nat)).length / 3] ++
          List.replicate 24 0), .raw ([] ++ [32])] ∧
    (halfStep ⟨ucpFresh, []⟩ [] [65] (List.replicate 24 0)).2.2 = [] :=
  text_miss_define_then_flush ⟨ucpFresh, []⟩ [] [65] (List.replicate 24 0) 32
    rfl (by decide)

/-- C2 counterexample: rendering "A" from the fresh cache emits the
define-slot command for the allocated code 0x20 at position 2, and no
command before it carries the buffered code byte — the pending buffer
(holding the code) is transmitted only AFTER the define, refuting the
claimed flush-before-define order. -/
theorem text_flush_order_counterexample :
    UnicodeCharacterPrinting.init 8 = .ok ucpFresh ∧
    (text fontGood ucpFresh [65]).2.out =
      [DeviceCmd.setFont, DeviceCmd.raw [27, 37, 1],
        DeviceCmd.raw ([27, 38, 3, 32, 32, 8] ++ List.replicate 24 0),
        DeviceCmd.raw [32], DeviceCmd.raw [27, 37, 0]] ∧
    ((text fontGood ucpFresh [65]).2.out.take 2).all
      (fun cmd => !(rawHasByte cmd 32)) = true ∧
    (text fontGood ucpFresh [65]).2.out.getD 2 DeviceCmd.setFont =
      DeviceCmd.raw ([27, 38, 3, 32, 32, 8] ++ List.replicate 24 0) ∧
    (text fontGood ucpFresh [65]).2.out.getD 3 DeviceCmd.setFont =
      DeviceCmd.raw [32] :=
  ⟨rfl, rfl, by decide, by decide, by decide⟩

/-! ## C4: oversize glyph blocks -/

/-- C4 (amended): when the transcoded block for a slot exceeds the 27-byte
budget, the error is raised before any device command for that slot is
emitted (the sink receives nothing from this step), and the cache keeps
exactly the state produced by the lookup: on a miss the failing step
returns the oversize error, and the allocation committed by the lookup
(the key with its device code) survives in the cache rather than being
rolled back; the failure aborts the surrounding render. -/
theorem halfStep_oversize (s : PrinterState) (codes key block : List Nat)
    (h : block.length > 27) :
    (halfStep s codes key block).2.1.out = s.out ∧
    (halfStep s codes key block).2.1.cache =
      (s.cache.getItem nextAsciiCode key).2 ∧
    (∀ code, (s.cache.getItem nextAsciiCode key).1 = .ok (code, false) →
      (halfStep s codes key block).1 =
        .error "bitmap too large, maximum 27 bytes for font B.") := by
  unfold halfStep
  dsimp only
  cases hr : (s.cache.getItem nextAsciiCode key).1 with
  | error e =>
    refine ⟨rfl, rfl, ?_⟩
    intro code hcode
    exact Except.noConfusion hcode
  | ok p =>
    obtain ⟨code, hit⟩ := p
    dsimp only
    cases hit with
    | true =>
      refine ⟨rfl, rfl, ?_⟩
      intro code2 hcode
      have : (code, true) = (code2, false) := by
        injection hcode
      have hb : true = false := congrArg Prod.snd this
      exact Bool.noConfusion hb
    | false =>
      unfold defineUdc
      rw [if_pos h]
      exact ⟨rfl, rfl, fun _ _ => rfl⟩

/-- Witness for halfStep_oversize: a 28-byte block on the fresh cache. -/
theorem halfStep_oversize_witness :
    (halfStep ⟨ucpFresh, []⟩ [] [65] (List.replicate 28 0)).2.1.out = [] ∧
    (halfStep ⟨ucpFresh, []⟩ [] [65] (List.replicate 28 0)).2.1.cache =
      ((⟨ucpFresh, []⟩ : PrinterState).cache.getItem nextAsciiCode [65]).2 ∧
    (halfStep ⟨ucpFresh, []⟩ [] [65] (List.replicate 28 0)).1 =
      .error "bitmap too large, maximum 27 bytes for font B." :=
  ⟨(halfStep_oversize ⟨ucpFresh, []⟩ [] [65] (List.replicate 28 0) (by decide)).1,
    (halfStep_oversize ⟨ucpFresh, []⟩ [] [65] (List.replicate 28 0) (by decide)).2.1,
    (halfStep_oversize ⟨ucpFresh, []⟩ [] [65] (List.replicate 28 0) (by decide)).2.2
      32 rfl⟩

/-- C4 counterexample: rendering "AB" where A's block is oversize raises,
aborts the whole render (B is never processed, no commands after
mode-select), and the cache still holds the allocation [65] ↦ 0x20
committed by the failed character's lookup — refuting the claim that no
partial slot allocation survives the failure. -/
theorem text_oversize_allocation_survives :
    (text fontOversize ucpFresh [65, 66]).1 =
      .error "bitmap too large, maximum 27 bytes for font B." ∧
    odGet (text fontOversize ucpFresh [65, 66]).2.cache.probationary [65] =
      some 0x20 ∧
    (text fontOversize ucpFresh [65, 66]).2.out =
      [DeviceCmd.setFont, DeviceCmd.raw [27, 37, 1]] :=
  ⟨rfl, by decide, rfl⟩

end Receiptbot
